import Mathlib

/-!
Verification of the in-memory record store with write-time notification
(`src/src/index.ts`): a generic observer hub (`createObserver`), the
`InMemoryDatabase` class produced by `createDatabase` (methods `set`, `get`,
`onBeforeAdd`, `onAfterAdd`, `visit`, `selectBest`), and the events
`BeforeSetEvent` / `AfterSetEvent`.

Modelling choices:
* A JavaScript object used as a string-keyed map (`Record<string, T>`) is an
  insertion-ordered association list with unique keys: assignment
  (`db[k] = v`) replaces the value in place when the key is present and
  appends otherwise (`objSet`); indexing (`db[k]`) returns the value of the
  first entry with that key, or `undefined`, modelled as `Option` (`objGet`);
  `Object.values` lists the values in entry order (`objValues`).
* A listener is identified by its function reference; we model references by
  an arbitrary type with decidable equality.  `subscribe` pushes the listener;
  the returned closure filters the array by reference inequality (`unsub`);
  `publish` invokes every current listener in order with the event, modelled
  as the list of (listener, event) invocations it performs.
* `set` with non-throwing listeners is the straight-line method body.
  `setExc` models the same body when listeners may throw (JavaScript
  exception flow): `forEach` stops at the first throwing listener and the
  exception propagates, so a throw inside the before-publish skips the
  mutation and the after-publish.
-/

namespace DP

/-- One observer hub (`createObserver`): its only state is the current
listener array.  `L` is the type of listener references. -/
structure Observer (L : Type) where
  listeners : List L
deriving DecidableEq

/-- `subscribe`: push the listener onto the array. -/
def Observer.subscribe {L : Type} (o : Observer L) (l : L) : Observer L :=
  Observer.mk (o.listeners ++ [l])

/-- The closure returned by `subscribe`, applied: keep the listeners that are
not reference-equal to `l` (`listeners.filter(x => x !== l)`). -/
def Observer.unsub {L : Type} [DecidableEq L] (o : Observer L) (l : L) : Observer L :=
  Observer.mk (o.listeners.filter (fun x => x ≠ l))

/-- `publish` with listeners that do not throw: every currently registered
listener is invoked, in registration order, with the event.  The result is
the list of invocations performed. -/
def Observer.publish {L E : Type} (o : Observer L) (ev : E) : List (L × E) :=
  o.listeners.map (fun x => (x, ev))

/-- `publish` when listeners may throw.  `throws l ev` says whether invoking
listener `l` on `ev` raises.  `forEach` invokes listeners in order; the first
throwing listener is still invoked, later ones are not, and the exception
propagates (second component `true`). -/
def publishRun {L E : Type} (throws : L → E → Bool) (ev : E) :
    List L → List (L × E) × Bool
  | [] => ([], false)
  | l :: ls =>
    if throws l ev then ([(l, ev)], true)
    else
      let r := publishRun throws ev ls
      ((l, ev) :: r.1, r.2)

/-- `db[k]` on a JavaScript object: the value of the first entry with key
`k`, `none` when absent. -/
def objGet {T : Type} : List (String × T) → String → Option T
  | [], _ => none
  | p :: ps, k => if p.1 = k then some p.2 else objGet ps k

/-- `db[k] = v` on a JavaScript object: replace in place when the key is
present, append otherwise. -/
def objSet {T : Type} (db : List (String × T)) (k : String) (v : T) :
    List (String × T) :=
  if db.any (fun p => p.1 = k) then
    db.map (fun p => if p.1 = k then (k, v) else p)
  else db ++ [(k, v)]

/-- `Object.values(db)`: the stored values in entry order. -/
def objValues {T : Type} (db : List (String × T)) : List T :=
  db.map (fun p => p.2)

/-- `BaseRecord`: anything carrying a string identifier. -/
class BaseRecord (T : Type) where
  id : T → String

/-- The sample record type of the repository. -/
structure Pokemon where
  id : String
  attack : Int
  defense : Int
deriving DecidableEq

instance : BaseRecord Pokemon := BaseRecord.mk Pokemon.id

/-- `BeforeSetEvent<T>`: `value` is the record previously stored under the
incoming record's id (`undefined`, i.e. `none`, on a fresh id), `newValue`
the incoming record. -/
structure BeforeSetEvent (T : Type) where
  value : Option T
  newValue : T
deriving DecidableEq

/-- `AfterSetEvent<T>`: the record just stored. -/
structure AfterSetEvent (T : Type) where
  value : T
deriving DecidableEq

/-- The state of one `InMemoryDatabase` instance: the backing object `db`
and the two observer hubs.  `B` / `A` are the reference types of before- and
after-listeners. -/
structure InMemoryDatabase (T B A : Type) where
  db : List (String × T)
  beforeAddListeners : Observer B
  afterAddListeners : Observer A
deriving DecidableEq

/-- A freshly constructed database: empty object, no listeners. -/
def emptyDB (T B A : Type) : InMemoryDatabase T B A :=
  InMemoryDatabase.mk [] (Observer.mk []) (Observer.mk [])

/-- What one `set` call produces: the state after the call, the before- and
after-listener invocations it performed, and whether it ended by an
exception escaping from a listener. -/
structure SetResult (T B A : Type) where
  state : InMemoryDatabase T B A
  beforeInv : List (B × BeforeSetEvent T)
  afterInv : List (A × AfterSetEvent T)
  threw : Bool
deriving DecidableEq

/-- `set(newValue)` with non-throwing listeners, straight from the method
body: publish `{ newValue, value: this.db[newValue.id] }` on the before hub,
assign `this.db[newValue.id] = newValue`, publish `{ value: newValue }` on
the after hub. -/
def InMemoryDatabase.set {T B A : Type} [BaseRecord T]
    (d : InMemoryDatabase T B A) (newValue : T) : SetResult T B A :=
  SetResult.mk
    (InMemoryDatabase.mk (objSet d.db (BaseRecord.id newValue) newValue)
      d.beforeAddListeners d.afterAddListeners)
    (d.beforeAddListeners.publish
      (BeforeSetEvent.mk (objGet d.db (BaseRecord.id newValue)) newValue))
    (d.afterAddListeners.publish (AfterSetEvent.mk newValue))
    false

/-- `set(newValue)` when listeners may throw.  If the before-publish raises,
the assignment and the after-publish never run and the state is unchanged;
if an after-listener raises, the assignment has already happened. -/
def InMemoryDatabase.setExc {T B A : Type} [BaseRecord T]
    (bthrows : B → BeforeSetEvent T → Bool)
    (athrows : A → AfterSetEvent T → Bool)
    (d : InMemoryDatabase T B A) (newValue : T) : SetResult T B A :=
  let bev : BeforeSetEvent T :=
    BeforeSetEvent.mk (objGet d.db (BaseRecord.id newValue)) newValue
  let b := publishRun bthrows bev d.beforeAddListeners.listeners
  if b.2 then SetResult.mk d b.1 [] true
  else
    let a := publishRun athrows (AfterSetEvent.mk newValue)
      d.afterAddListeners.listeners
    SetResult.mk
      (InMemoryDatabase.mk (objSet d.db (BaseRecord.id newValue) newValue)
        d.beforeAddListeners d.afterAddListeners)
      b.1 a.1 a.2

/-- `get(id)`: `return this.db[id]`. -/
def InMemoryDatabase.get {T B A : Type} (d : InMemoryDatabase T B A)
    (i : String) : Option T :=
  objGet d.db i

/-- `visit(visitor)`: `Object.values(this.db).forEach(visitor)`, modelled as
the list of records the visitor is invoked on, in scan order. -/
def InMemoryDatabase.visit {T B A : Type} (d : InMemoryDatabase T B A) :
    List T :=
  objValues d.db

/-- One reduce step of `selectBest`: update the accumulator `{ max, item }`
when the item's score strictly exceeds the running max. -/
def bestStep {T : Type} (scoreStrategy : T → Int) (f : Int × Option T)
    (item : T) : Int × Option T :=
  if scoreStrategy item > f.1 then (scoreStrategy item, some item) else f

/-- `selectBest(scoreStrategy)`: reduce over `Object.values(this.db)` with
accumulator seeded at `{ max: 0, item: undefined }`; return the final
`item`. -/
def InMemoryDatabase.selectBest {T B A : Type} (d : InMemoryDatabase T B A)
    (scoreStrategy : T → Int) : Option T :=
  ((objValues d.db).foldl (bestStep scoreStrategy)
    ((0 : Int), (none : Option T))).2

/-- `onBeforeAdd(listener)`: subscribe on the before hub. -/
def InMemoryDatabase.onBeforeAdd {T B A : Type} (d : InMemoryDatabase T B A)
    (l : B) : InMemoryDatabase T B A :=
  InMemoryDatabase.mk d.db (d.beforeAddListeners.subscribe l)
    d.afterAddListeners

/-- `onAfterAdd(listener)`: subscribe on the after hub. -/
def InMemoryDatabase.onAfterAdd {T B A : Type} (d : InMemoryDatabase T B A)
    (l : A) : InMemoryDatabase T B A :=
  InMemoryDatabase.mk d.db d.beforeAddListeners
    (d.afterAddListeners.subscribe l)

/-- Applying the handle `onBeforeAdd` returned. -/
def InMemoryDatabase.unsubBeforeAdd {T B A : Type} [DecidableEq B]
    (d : InMemoryDatabase T B A) (l : B) : InMemoryDatabase T B A :=
  InMemoryDatabase.mk d.db (d.beforeAddListeners.unsub l) d.afterAddListeners

/-- Applying the handle `onAfterAdd` returned. -/
def InMemoryDatabase.unsubAfterAdd {T B A : Type} [DecidableEq A]
    (d : InMemoryDatabase T B A) (l : A) : InMemoryDatabase T B A :=
  InMemoryDatabase.mk d.db d.beforeAddListeners (d.afterAddListeners.unsub l)

/-- The operations a caller can perform that the read-purity claims compare:
a write, a lookup, a traversal. -/
inductive Op (T : Type) where
  | setOp : T → Op T
  | getOp : String → Op T
  | visitOp : Op T

/-- The full observable outcome of one operation: the state it leaves, the
listener invocations it performs, the visitor invocations it performs, and
the value it returns. -/
structure StepResult (T B A : Type) where
  state : InMemoryDatabase T B A
  beforeInv : List (B × BeforeSetEvent T)
  afterInv : List (A × AfterSetEvent T)
  visited : List T
  got : Option T
deriving DecidableEq

/-- Interpreter of one operation against the method bodies. -/
def step {T B A : Type} [BaseRecord T] (d : InMemoryDatabase T B A) :
    Op T → StepResult T B A
  | Op.setOp r =>
    let s := d.set r
    StepResult.mk s.state s.beforeInv s.afterInv [] none
  | Op.getOp i => StepResult.mk d [] [] [] (d.get i)
  | Op.visitOp => StepResult.mk d [] [] d.visit none

/-- Replay a list of `set` calls (listeners not throwing) from a state. -/
def runSets {T B A : Type} [BaseRecord T] (d : InMemoryDatabase T B A) :
    List T → InMemoryDatabase T B A
  | [] => d
  | r :: rs => runSets (d.set r).state rs

/-- Well-formedness the write path maintains: every entry is keyed by its
record's own id. -/
def WF {T B A : Type} [BaseRecord T] (d : InMemoryDatabase T B A) : Prop :=
  ∀ p ∈ d.db, BaseRecord.id p.2 = p.1

/-- The backing object has no duplicate keys (true of every JavaScript
object; true of every state `runSets` reaches). -/
def KeysNodup {T B A : Type} (d : InMemoryDatabase T B A) : Prop :=
  (d.db.map (fun p => p.1)).Nodup

/-- The all-negative-score store of P7: attacks −5, −1, −10. -/
def negStore : InMemoryDatabase Pokemon Nat Nat :=
  runSets (emptyDB Pokemon Nat Nat)
    [Pokemon.mk "a" (-5) 0, Pokemon.mk "b" (-1) 0, Pokemon.mk "c" (-10) 0]

/-- The mixed-score store of P7: attacks −5, 10, 3. -/
def mixStore : InMemoryDatabase Pokemon Nat Nat :=
  runSets (emptyDB Pokemon Nat Nat)
    [Pokemon.mk "a" (-5) 0, Pokemon.mk "b" 10 0, Pokemon.mk "c" 3 0]

/-! ### Lemmas about the JavaScript-object embedding -/

lemma objGet_append_right {T : Type} (db l2 : List (String × T)) (k : String)
    (h : ∀ p ∈ db, p.1 ≠ k) : objGet (db ++ l2) k = objGet l2 k := by
  induction db with
  | nil => rfl
  | cons p ps ih =>
    simp only [List.cons_append, objGet]
    rw [if_neg (h p (by simp))]
    exact ih (fun q hq => h q (by simp [hq]))

lemma objGet_map_replace {T : Type} (k : String) (v : T) :
    ∀ db : List (String × T),
      objGet (db.map (fun p => if p.1 = k then (k, v) else p)) k =
        if db.any (fun p => p.1 = k) then some v else none
  | [] => rfl
  | p :: ps => by
    by_cases h : p.1 = k
    · simp [objGet, h]
    · simp only [List.map_cons, objGet, List.any_cons]
      rw [if_neg h, objGet_map_replace k v ps, if_neg h]
      have hb : (decide (p.1 = k) || ps.any fun q => decide (q.1 = k)) =
          (ps.any fun q => decide (q.1 = k)) := by
        rw [decide_eq_false h, Bool.false_or]
      simp only [hb]

lemma objGet_objSet_self {T : Type} (db : List (String × T)) (k : String)
    (v : T) : objGet (objSet db k v) k = some v := by
  unfold objSet
  by_cases h : db.any (fun p => p.1 = k)
  · rw [if_pos h, objGet_map_replace, if_pos h]
  · rw [if_neg h, objGet_append_right]
    · simp [objGet]
    · intro p hp hk
      apply h
      simp only [List.any_eq_true, decide_eq_true_eq]
      exact ⟨p, hp, hk⟩

lemma objGet_map_replace_ne {T : Type} (k k2 : String) (v : T) (h : k2 ≠ k) :
    ∀ db : List (String × T),
      objGet (db.map (fun p => if p.1 = k then (k, v) else p)) k2 =
        objGet db k2
  | [] => rfl
  | p :: ps => by
    have h' : k ≠ k2 := Ne.symm h
    by_cases hp : p.1 = k
    · simp [objGet, hp, h', objGet_map_replace_ne k k2 v h ps]
    · simp [objGet, hp, objGet_map_replace_ne k k2 v h ps]

lemma objGet_append_single_ne {T : Type} (k k2 : String) (v : T)
    (h : k2 ≠ k) : ∀ db : List (String × T),
      objGet (db ++ [(k, v)]) k2 = objGet db k2
  | [] => by simp [objGet, Ne.symm h]
  | p :: ps => by
    by_cases hp : p.1 = k2
    · simp [objGet, hp]
    · simp [objGet, hp, objGet_append_single_ne k k2 v h ps]

lemma objGet_objSet_ne {T : Type} (db : List (String × T)) (k k2 : String)
    (v : T) (h : k2 ≠ k) : objGet (objSet db k v) k2 = objGet db k2 := by
  unfold objSet
  by_cases ha : db.any (fun p => p.1 = k)
  · rw [if_pos ha, objGet_map_replace_ne k k2 v h]
  · rw [if_neg ha, objGet_append_single_ne k k2 v h]

lemma mem_objSet {T : Type} {db : List (String × T)} {k : String} {v : T}
    {p : String × T} (hp : p ∈ objSet db k v) :
    p = (k, v) ∨ (p ∈ db ∧ p.1 ≠ k) := by
  unfold objSet at hp
  by_cases ha : db.any (fun q => q.1 = k)
  · rw [if_pos ha] at hp
    rcases List.mem_map.1 hp with ⟨q, hq, hqe⟩
    by_cases hk : q.1 = k
    · left
      rw [← hqe, if_pos hk]
    · right
      rw [← hqe, if_neg hk]
      exact ⟨hq, hk⟩
  · rw [if_neg ha] at hp
    rcases List.mem_append.1 hp with h1 | h2
    · right
      refine ⟨h1, fun hk => ?_⟩
      apply ha
      simp only [List.any_eq_true, decide_eq_true_eq]
      exact ⟨p, h1, hk⟩
    · left
      simpa using h2

lemma objGet_mem {T : Type} :
    ∀ {db : List (String × T)} {k : String} {v : T},
      objGet db k = some v → (k, v) ∈ db
  | [], _, _, h => by simp [objGet] at h
  | p :: ps, k, v, h => by
    by_cases hp : p.1 = k
    · simp only [objGet, if_pos hp, Option.some.injEq] at h
      rw [← hp, ← h]
      exact List.mem_cons_self _ _
    · simp only [objGet, if_neg hp] at h
      exact List.mem_cons_of_mem p (objGet_mem h)

lemma objGet_isSome_objSet {T : Type} (db : List (String × T))
    (k k2 : String) (v : T) (h : (objGet db k2).isSome = true) :
    (objGet (objSet db k v) k2).isSome = true := by
  by_cases hk : k2 = k
  · rw [hk, objGet_objSet_self]
    rfl
  · rw [objGet_objSet_ne db k k2 v hk]
    exact h

lemma objGet_of_mem_nodup {T : Type} :
    ∀ {db : List (String × T)}, (db.map (fun p => p.1)).Nodup →
      ∀ {k : String} {v : T}, (k, v) ∈ db → objGet db k = some v
  | [], _, _, _, hm => by simp at hm
  | p :: ps, hnd, k, v, hm => by
    rw [List.map_cons] at hnd
    rcases List.nodup_cons.1 hnd with ⟨hni, hndt⟩
    rcases List.mem_cons.1 hm with h1 | h2
    · simp [objGet, ← h1]
    · have hk : p.1 ≠ k := by
        intro hk
        exact hni (hk ▸ List.mem_map.2 ⟨(k, v), h2, rfl⟩)
      simp only [objGet, if_neg hk]
      exact objGet_of_mem_nodup hndt h2

lemma values_nodup {T : Type} (f : T → String) :
    ∀ {db : List (String × T)}, (∀ p ∈ db, f p.2 = p.1) →
      (db.map (fun p => p.1)).Nodup → (db.map (fun p => p.2)).Nodup
  | [], _, _ => by simp
  | p :: ps, hwf, hnd => by
    rw [List.map_cons] at hnd
    rcases List.nodup_cons.1 hnd with ⟨hni, hndt⟩
    rw [List.map_cons]
    refine List.nodup_cons.2
      ⟨?_, values_nodup f (fun q hq => hwf q (by simp [hq])) hndt⟩
    intro hmem
    rcases List.mem_map.1 hmem with ⟨q, hq, hqe⟩
    apply hni
    have : f q.2 = q.1 := hwf q (by simp [hq])
    have hq1 : q.1 = p.1 := by
      rw [← this, hqe, hwf p (by simp)]
    exact hq1 ▸ List.mem_map.2 ⟨q, hq, rfl⟩

/-! ### Lemmas about the observer hub -/

lemma publishRun_false {L E : Type} (ev : E) :
    ∀ ls : List L,
      publishRun (fun _ _ => false) ev ls = (ls.map (fun l => (l, ev)), false)
  | [] => rfl
  | l :: ls => by simp [publishRun, publishRun_false ev ls]

lemma publishRun_snd_true {L E : Type} (throws : L → E → Bool) (ev : E) :
    ∀ ls : List L,
      (publishRun throws ev ls).2 = true ↔ ∃ l ∈ ls, throws l ev = true
  | [] => by simp [publishRun]
  | l :: ls => by
    by_cases h : throws l ev
    · simp [publishRun, h]
    · simp [publishRun, h, publishRun_snd_true throws ev ls]

lemma setExc_no_throw {T B A : Type} [BaseRecord T]
    (d : InMemoryDatabase T B A) (r : T) :
    d.setExc (fun _ _ => false) (fun _ _ => false) r = d.set r := by
  simp [InMemoryDatabase.setExc, InMemoryDatabase.set, publishRun_false,
    Observer.publish]

/-! ### Lemmas about the `selectBest` reduce -/

lemma foldl_bestStep_const {T : Type} (score : T → Int) :
    ∀ (vs : List T) (m : Int) (it : Option T), (∀ x ∈ vs, score x ≤ m) →
      vs.foldl (bestStep score) (m, it) = (m, it)
  | [], _, _, _ => rfl
  | x :: xs, m, it, h => by
    have hx : ¬ ((m, it).1 < score x) := not_lt.2 (h x (by simp))
    simp only [List.foldl_cons, bestStep, gt_iff_lt, if_neg hx]
    exact foldl_bestStep_const score xs m it (fun y hy => h y (by simp [hy]))

lemma foldl_bestStep_found {T : Type} (score : T → Int) :
    ∀ (vs : List T) (m : Int) (it : Option T), (∃ y ∈ vs, m < score y) →
      ∃ p t q, vs = p ++ t :: q ∧ m < score t ∧
        (∀ u ∈ p, score u < score t) ∧ (∀ u ∈ vs, score u ≤ score t) ∧
        vs.foldl (bestStep score) (m, it) = (score t, some t) := by
  intro vs
  induction vs with
  | nil =>
    intro m it h
    simp at h
  | cons x xs ih =>
    intro m it h
    have hstep : ∀ acc : Int × Option T,
        List.foldl (bestStep score) acc (x :: xs) =
          List.foldl (bestStep score) (bestStep score acc x) xs := by
      intro acc
      rfl
    by_cases hx : m < score x
    · have hcons : List.foldl (bestStep score) (m, it) (x :: xs) =
          List.foldl (bestStep score) (score x, some x) xs := by
        rw [hstep]
        simp [bestStep, hx]
      by_cases hall : ∀ u ∈ xs, score u ≤ score x
      · refine ⟨[], x, xs, rfl, hx, by simp, ?_, ?_⟩
        · intro u hu
          rcases List.mem_cons.1 hu with h1 | h2
          · exact le_of_eq (by rw [h1])
          · exact hall u h2
        · rw [hcons, foldl_bestStep_const score xs _ _ hall]
      · push_neg at hall
        rcases hall with ⟨y, hy, hxy⟩
        rcases ih (score x) (some x) ⟨y, hy, hxy⟩ with
          ⟨p, t, q, hvs, hmt, hp, hall2, hfold⟩
        refine ⟨x :: p, t, q, by rw [List.cons_append, hvs], lt_trans hx hmt,
          ?_, ?_, ?_⟩
        · intro u hu
          rcases List.mem_cons.1 hu with h1 | h2
          · rw [h1]; exact hmt
          · exact hp u h2
        · intro u hu
          rcases List.mem_cons.1 hu with h1 | h2
          · rw [h1]; exact le_of_lt hmt
          · exact hall2 u h2
        · rw [hcons, hfold]
    · have hcons : List.foldl (bestStep score) (m, it) (x :: xs) =
          List.foldl (bestStep score) (m, it) xs := by
        rw [hstep]
        simp [bestStep, hx]
      rcases h with ⟨y, hy, hmy⟩
      have hyx : y ∈ xs := by
        rcases List.mem_cons.1 hy with h1 | h2
        · exact absurd (h1 ▸ hmy) hx
        · exact h2
      rcases ih m it ⟨y, hyx, hmy⟩ with ⟨p, t, q, hvs, hmt, hp, hall2, hfold⟩
      have hxt : score x < score t := lt_of_le_of_lt (not_lt.1 hx) hmt
      refine ⟨x :: p, t, q, by rw [List.cons_append, hvs], hmt, ?_, ?_, ?_⟩
      · intro u hu
        rcases List.mem_cons.1 hu with h1 | h2
        · rw [h1]; exact hxt
        · exact hp u h2
      · intro u hu
        rcases List.mem_cons.1 hu with h1 | h2
        · rw [h1]; exact le_of_lt hxt
        · exact hall2 u h2
      · rw [hcons, hfold]

/-! ### The claims -/

/-- C1: `selectBest` returns the stored record with the strictly greatest
score under a strict-greater-than comparison seeded at a zero baseline: it
returns `none` on an empty store and when no record scores above zero (so an
all-negative store such as the one with scores −5, −1, −10 yields `none`);
when it returns a record, that record scores above zero, no stored record
scores more, and every record seen earlier in scan order scores strictly
less (ties keep the first-seen maximizer); whenever some record scores above
zero a record is returned; and on the store with scores −5, 10, 3 it returns
the record scoring 10. -/
theorem C1_selectBest_zero_seeded_strict_max :
    (∀ (T B A : Type) (d : InMemoryDatabase T B A) (score : T → Int),
      (d.db = [] → d.selectBest score = none)
      ∧ ((∀ t ∈ objValues d.db, score t ≤ 0) → d.selectBest score = none)
      ∧ (∀ t, d.selectBest score = some t →
          0 < score t
          ∧ (∀ u ∈ objValues d.db, score u ≤ score t)
          ∧ ∃ p q, objValues d.db = p ++ t :: q ∧
              ∀ u ∈ p, score u < score t)
      ∧ ((∃ t ∈ objValues d.db, 0 < score t) →
          (d.selectBest score).isSome = true))
  ∧ negStore.selectBest Pokemon.attack = none
  ∧ mixStore.selectBest Pokemon.attack = some (Pokemon.mk "b" 10 0) := by
  refine ⟨?_, by decide, by decide⟩
  intro T B A d score
  refine ⟨?_, ?_, ?_, ?_⟩
  · intro h
    simp [InMemoryDatabase.selectBest, objValues, h]
  · intro h
    unfold InMemoryDatabase.selectBest
    rw [foldl_bestStep_const score _ 0 none h]
  · intro t ht
    by_cases hex : ∃ y ∈ objValues d.db, (0 : Int) < score y
    · rcases foldl_bestStep_found score (objValues d.db) 0 none hex with
        ⟨p, t2, q, hvs, hmt, hp, hall, hfold⟩
      unfold InMemoryDatabase.selectBest at ht
      rw [hfold] at ht
      have ht2 : t2 = t := by simpa using ht
      subst ht2
      exact ⟨hmt, hall, p, q, hvs, hp⟩
    · push_neg at hex
      unfold InMemoryDatabase.selectBest at ht
      rw [foldl_bestStep_const score _ 0 none hex] at ht
      simp at ht
  · intro hex
    rcases foldl_bestStep_found score (objValues d.db) 0 none hex with
      ⟨p, t2, q, hvs, hmt, hp, hall, hfold⟩
    unfold InMemoryDatabase.selectBest
    rw [hfold]
    rfl

/-- C2: immediately after `set(r)`, `get(r.id)` returns `r`. -/
theorem C2_write_then_read {T B A : Type} [BaseRecord T]
    (d : InMemoryDatabase T B A) (r : T) :
    (d.set r).state.get (BaseRecord.id r) = some r := by
  simp [InMemoryDatabase.set, InMemoryDatabase.get, objGet_objSet_self]

/-- C3: after `set(r1); set(r2)` with a shared identifier, `get` on that
identifier returns `r2`; and when every entry of the starting store is keyed
by its own record's id, the value `r1` (if different from `r2`) is no longer
retrievable under any key. -/
theorem C3_overwrite {T B A : Type} [BaseRecord T]
    (d : InMemoryDatabase T B A) (r1 r2 : T)
    (hid : BaseRecord.id r1 = BaseRecord.id r2) :
    ((d.set r1).state.set r2).state.get (BaseRecord.id r2) = some r2
  ∧ (WF d → r1 ≠ r2 →
      ∀ k, ((d.set r1).state.set r2).state.get k ≠ some r1) := by
  constructor
  · simp [InMemoryDatabase.set, InMemoryDatabase.get, objGet_objSet_self]
  · intro hwf hne k hcontra
    simp only [InMemoryDatabase.set, InMemoryDatabase.get] at hcontra
    have hmem := objGet_mem hcontra
    rcases mem_objSet hmem with h1 | ⟨h2, hk2⟩
    · exact hne (congrArg Prod.snd h1)
    · rcases mem_objSet h2 with h3 | ⟨h4, hk4⟩
      · have : k = BaseRecord.id r1 := congrArg Prod.fst h3
        exact hk2 (this.trans hid)
      · have : BaseRecord.id r1 = k := hwf (k, r1) h4
        exact hk2 (this ▸ hid)

/-- Witness for C3 at a concrete input: overwriting id "a". -/
theorem C3_overwrite_witness :
    (((emptyDB Pokemon Nat Nat).set (Pokemon.mk "a" 1 1)).state.set
        (Pokemon.mk "a" 2 2)).state.get (BaseRecord.id (Pokemon.mk "a" 2 2))
      = some (Pokemon.mk "a" 2 2) :=
  (C3_overwrite (emptyDB Pokemon Nat Nat) (Pokemon.mk "a" 1 1)
    (Pokemon.mk "a" 2 2) rfl).1

/-- C4: a listener subscribed to before-write events sees, for a `set(r)` on
an empty store, an event with previous value absent and new value `r`; a
subsequent `set(r2)` with the same identifier yields an event whose previous
value is the stored `r`.  Every before-write event carries as its previous
value the lookup in the pre-mutation store, i.e. it is published before the
mutation is applied. -/
theorem C4_before_event_payload {T B A : Type} [BaseRecord T]
    (d0 : InMemoryDatabase T B A) (l : B) (r r2 : T)
    (h0 : d0.db = []) (hid : BaseRecord.id r2 = BaseRecord.id r) :
    ((l, BeforeSetEvent.mk none r) ∈ ((d0.onBeforeAdd l).set r).beforeInv)
  ∧ ((l, BeforeSetEvent.mk (some r) r2) ∈
      (((d0.onBeforeAdd l).set r).state.set r2).beforeInv)
  ∧ (∀ q ∈ ((d0.onBeforeAdd l).set r).beforeInv,
      q.2.value = (d0.onBeforeAdd l).get (BaseRecord.id r)) := by
  refine ⟨?_, ?_, ?_⟩
  · simp [InMemoryDatabase.set, InMemoryDatabase.onBeforeAdd,
      Observer.publish, Observer.subscribe, h0, objGet]
  · have hget : objGet (objSet d0.db (BaseRecord.id r) r)
        (BaseRecord.id r2) = some r := by
      rw [hid, objGet_objSet_self]
    simp [InMemoryDatabase.set, InMemoryDatabase.onBeforeAdd,
      Observer.publish, Observer.subscribe, hget]
  · intro q hq
    simp only [InMemoryDatabase.set, Observer.publish, List.mem_map] at hq
    rcases hq with ⟨x, hx, hxe⟩
    rw [← hxe]
    rfl

/-- Witness for C4 at a concrete input: first write on an empty store. -/
theorem C4_before_event_payload_witness :
    ((0 : Nat), BeforeSetEvent.mk none (Pokemon.mk "a" 1 1)) ∈
      (((emptyDB Pokemon Nat Nat).onBeforeAdd 0).set
        (Pokemon.mk "a" 1 1)).beforeInv :=
  (C4_before_event_payload (emptyDB Pokemon Nat Nat) 0 (Pokemon.mk "a" 1 1)
    (Pokemon.mk "a" 2 2) rfl rfl).1

/-- C5: a listener registered exactly once on the after hub is invoked with
exactly one event per `set(r)` call, and that event's value is `r`; the
mutation is applied by `set`, and (in the throwing model) whenever any
after-write invocation happens at all the mutation has already been
applied. -/
theorem C5_after_event_payload {T B A : Type} [BaseRecord T]
    [DecidableEq A] (d : InMemoryDatabase T B A) (l : A) (r : T)
    (hcount : d.afterAddListeners.listeners.count l = 1) :
    (((d.set r).afterInv.map Prod.fst).count l = 1)
  ∧ (∀ q ∈ (d.set r).afterInv, q.1 = l → q.2 = AfterSetEvent.mk r)
  ∧ ((d.set r).state.db = objSet d.db (BaseRecord.id r) r)
  ∧ (∀ (bt : B → BeforeSetEvent T → Bool)
       (ath : A → AfterSetEvent T → Bool),
      (d.setExc bt ath r).afterInv ≠ [] →
      (d.setExc bt ath r).state.db = objSet d.db (BaseRecord.id r) r) := by
  refine ⟨?_, ?_, rfl, ?_⟩
  · have hmap : ((d.set r).afterInv.map Prod.fst) =
        d.afterAddListeners.listeners := by
      simp only [InMemoryDatabase.set, Observer.publish, List.map_map]
      have hfun : (Prod.fst ∘ fun x : A => (x, AfterSetEvent.mk r)) = id :=
        rfl
      rw [hfun, List.map_id]
    rw [hmap]
    exact hcount
  · intro q hq hql
    simp only [InMemoryDatabase.set, Observer.publish, List.mem_map] at hq
    rcases hq with ⟨x, hx, hxe⟩
    rw [← hxe]
  · intro bt ath hne
    simp only [InMemoryDatabase.setExc] at hne ⊢
    by_cases hb : (publishRun bt
        (BeforeSetEvent.mk (objGet d.db (BaseRecord.id r)) r)
        d.beforeAddListeners.listeners).2 = true
    · simp [hb] at hne
    · simp [hb]

/-- Witness for C5 at a concrete input: one after-listener, one write. -/
theorem C5_after_event_payload_witness :
    (((InMemoryDatabase.mk ([] : List (String × Pokemon)) (Observer.mk [])
        (Observer.mk [(0 : Nat)]) :
        InMemoryDatabase Pokemon Nat Nat).set
      (Pokemon.mk "a" 1 1)).afterInv.map Prod.fst).count (0 : Nat) = 1 :=
  (C5_after_event_payload (InMemoryDatabase.mk [] (Observer.mk [])
    (Observer.mk [0])) 0 (Pokemon.mk "a" 1 1) (by decide)).1

/-- C6 counterexample: subscribing the same listener reference twice and
invoking the unsubscribe handle from one of the registrations removes both
registrations, not exactly the one it came from — the listener keeps zero
registrations instead of one. -/
theorem C6_unsubscribe_counterexample :
    ((((Observer.mk ([] : List Nat)).subscribe 0).subscribe 0).unsub
        0).listeners.count 0 = 0
  ∧ ¬ ((((Observer.mk ([] : List Nat)).subscribe 0).subscribe 0).unsub
        0).listeners.count 0 = 1 := by
  exact ⟨by decide, by decide⟩

/-- C6 amended: invoking the unsubscribe handle removes every registration
that is reference-equal to the subscribed listener (all of them when it was
registered more than once); registrations of other listeners are untouched;
the removed listener receives no invocation from any subsequent publish; and
invoking the handle again is a no-op. -/
theorem C6_unsubscribe_amended {L E : Type} [DecidableEq L]
    (o : Observer L) (l : L) :
    ((o.unsub l).listeners.count l = 0)
  ∧ (∀ x, x ≠ l → (o.unsub l).listeners.count x = o.listeners.count x)
  ∧ (∀ (ev : E) (q : L × E), q ∈ (o.unsub l).publish ev → q.1 ≠ l)
  ∧ ((o.unsub l).unsub l = o.unsub l) := by
  refine ⟨?_, ?_, ?_, ?_⟩
  · rw [List.count_eq_zero]
    intro hmem
    simp [Observer.unsub] at hmem
  · intro x hx
    simp only [Observer.unsub]
    exact List.count_filter (by simpa using hx)
  · intro ev q hq
    simp only [Observer.unsub, Observer.publish, List.mem_map,
      List.mem_filter] at hq
    rcases hq with ⟨x, ⟨hx, hxl⟩, hxe⟩
    rw [← hxe]
    simpa using hxl
  · simp [Observer.unsub, List.filter_filter]

/-- C7: `get` on an identifier never written returns the absent value; in
particular this holds in every store reached by any sequence of writes none
of which used that identifier. -/
theorem C7_never_written_not_found (T B A : Type) [BaseRecord T]
    (rs : List T) (i : String) (h : ∀ r ∈ rs, BaseRecord.id r ≠ i) :
    (runSets (emptyDB T B A) rs).get i = none := by
  have main : ∀ (rs : List T) (d : InMemoryDatabase T B A),
      d.get i = none → (∀ r ∈ rs, BaseRecord.id r ≠ i) →
      (runSets d rs).get i = none := by
    intro rs
    induction rs with
    | nil =>
      intro d hd _
      exact hd
    | cons r rs ih =>
      intro d hd hr
      have hne : i ≠ BaseRecord.id r := Ne.symm (hr r (by simp))
      have : (d.set r).state.get i = d.get i := by
        simp only [InMemoryDatabase.set, InMemoryDatabase.get]
        exact objGet_objSet_ne d.db (BaseRecord.id r) i r hne
      exact ih (d.set r).state (this.trans hd)
        (fun r2 h2 => hr r2 (by simp [h2]))
  exact main rs (emptyDB T B A) rfl h

/-- Witness for C7 at a concrete input: id "b" was never written. -/
theorem C7_never_written_not_found_witness :
    (runSets (emptyDB Pokemon Nat Nat) [Pokemon.mk "a" 1 1]).get "b"
      = none :=
  C7_never_written_not_found Pokemon Nat Nat [Pokemon.mk "a" 1 1] "b"
    (by decide)

/-- C8: the read operations are pure: `get` leaves the state (stored records
and both listener registries) untouched, publishes nothing and returns the
lookup; `visit` leaves the state untouched, publishes nothing, and — on a
store whose entries are keyed by their record's id with no duplicate keys,
as every reachable store is — invokes the visitor exactly once per stored
record (each stored record is visited, only stored records are visited, no
record twice). -/
theorem C8_reads_pure {T B A : Type} [BaseRecord T]
    (d : InMemoryDatabase T B A) (i : String) :
    ((step d (Op.getOp i)).state = d
      ∧ (step d (Op.getOp i)).beforeInv = []
      ∧ (step d (Op.getOp i)).afterInv = []
      ∧ (step d (Op.getOp i)).got = d.get i)
  ∧ ((step d Op.visitOp).state = d
      ∧ (step d Op.visitOp).beforeInv = []
      ∧ (step d Op.visitOp).afterInv = []
      ∧ (step d Op.visitOp).visited = objValues d.db)
  ∧ (WF d → KeysNodup d →
      (∀ t, t ∈ (step d Op.visitOp).visited ↔ ∃ k, d.get k = some t)
      ∧ ((step d Op.visitOp).visited).Nodup) := by
  refine ⟨⟨rfl, rfl, rfl, rfl⟩, ⟨rfl, rfl, rfl, rfl⟩, ?_⟩
  intro hwf hnd
  constructor
  · intro t
    constructor
    · intro hmem
      simp only [step, InMemoryDatabase.visit, objValues,
        List.mem_map] at hmem
      rcases hmem with ⟨p, hp, hpe⟩
      refine ⟨p.1, ?_⟩
      have : objGet d.db p.1 = some p.2 :=
        objGet_of_mem_nodup hnd (by simpa using hp)
      rw [InMemoryDatabase.get, this, hpe]
    · intro hget
      rcases hget with ⟨k, hk⟩
      have hmem : (k, t) ∈ d.db := objGet_mem hk
      simp only [step, InMemoryDatabase.visit, objValues, List.mem_map]
      exact ⟨(k, t), hmem, rfl⟩
  · exact values_nodup (fun t => BaseRecord.id t) hwf hnd

/-- C9: if a before-write listener throws during `set(r)`, the store is left
exactly as it was (every `get` unchanged) and no after-write event is
published. -/
theorem C9_before_throw_aborts_write {T B A : Type} [BaseRecord T]
    (bt : B → BeforeSetEvent T → Bool) (ath : A → AfterSetEvent T → Bool)
    (d : InMemoryDatabase T B A) (r : T)
    (h : ∃ l ∈ d.beforeAddListeners.listeners,
      bt l (BeforeSetEvent.mk (d.get (BaseRecord.id r)) r) = true) :
    (d.setExc bt ath r).state = d
  ∧ (d.setExc bt ath r).afterInv = []
  ∧ (∀ k, (d.setExc bt ath r).state.get k = d.get k) := by
  have hb : (publishRun bt
      (BeforeSetEvent.mk (objGet d.db (BaseRecord.id r)) r)
      d.beforeAddListeners.listeners).2 = true :=
    (publishRun_snd_true bt _ d.beforeAddListeners.listeners).2 h
  have hstate : (d.setExc bt ath r).state = d := by
    simp [InMemoryDatabase.setExc, hb]
  have hafter : (d.setExc bt ath r).afterInv = [] := by
    simp [InMemoryDatabase.setExc, hb]
  exact ⟨hstate, hafter, fun k => by rw [hstate]⟩

/-- Witness for C9 at a concrete input: a single always-throwing
before-listener; the store still holds nothing after the aborted write. -/
theorem C9_before_throw_aborts_write_witness :
    ((InMemoryDatabase.mk ([] : List (String × Pokemon))
        (Observer.mk [(0 : Nat)]) (Observer.mk ([] : List Nat))).setExc
      (fun _ _ => true) (fun _ _ => false) (Pokemon.mk "a" 1 1)).state =
    InMemoryDatabase.mk ([] : List (String × Pokemon))
      (Observer.mk [(0 : Nat)]) (Observer.mk ([] : List Nat)) :=
  (C9_before_throw_aborts_write (fun _ _ => true) (fun _ _ => false)
    (InMemoryDatabase.mk [] (Observer.mk [0]) (Observer.mk []))
    (Pokemon.mk "a" 1 1) ⟨0, by simp, rfl⟩).1

/-- C10: `set(r)` leaves every identifier other than `r.id` bound to exactly
the record it was bound to before, and never removes a key: any identifier
bound before the call is still bound after it. -/
theorem C10_set_frames_other_keys {T B A : Type} [BaseRecord T]
    (d : InMemoryDatabase T B A) (r : T) :
    (∀ k, k ≠ BaseRecord.id r → (d.set r).state.get k = d.get k)
  ∧ (∀ k, (d.get k).isSome = true →
      ((d.set r).state.get k).isSome = true) := by
  constructor
  · intro k hk
    simp only [InMemoryDatabase.set, InMemoryDatabase.get]
    exact objGet_objSet_ne d.db (BaseRecord.id r) k r hk
  · intro k hk
    simp only [InMemoryDatabase.set, InMemoryDatabase.get] at hk ⊢
    exact objGet_isSome_objSet d.db (BaseRecord.id r) k r hk

end DP
